import Mathlib

/-!
Verification of the `tfind` time-range extraction engine (`src/tfind.py`).

The Python source is shallowly embedded over `List Char`: a file is its flat
character content, byte offsets are `Nat` indices, and every operation of the
engine (pattern learning, timestamp extraction, binary search over byte
offsets, forward streaming) is translated into an executable Lean function.
Strings are modelled at the ASCII level, where Python's `str.isalpha` and
`str.isdigit` are exactly the classes `[A-Za-z]` and `[0-9]`.

The external `dateutil` parser is not part of the repository; where a claim
needs it, a definition modelled from the spec's description of the external
capability is used and documented as such.
-/

namespace Tfind

/-- Python `ch.isalpha()` restricted to ASCII: exactly `[A-Za-z]`. -/
def pyAlpha (c : Char) : Bool :=
  (65 ≤ c.toNat && c.toNat ≤ 90) || (97 ≤ c.toNat && c.toNat ≤ 122)

/-- Python `ch.isdigit()` restricted to ASCII: exactly `[0-9]`. -/
def pyDigit (c : Char) : Bool := 48 ≤ c.toNat && c.toNat ≤ 57

/-- Python whitespace (`str.strip`, regex `\s`), ASCII part. -/
def pyIsSpace (c : Char) : Bool :=
  c == ' ' || c == '\t' || c == '\n' || c == '\r' || c == '\x0b' || c == '\x0c'

/-- Python `str.strip()`: drop whitespace from both ends. -/
def pyStrip (s : List Char) : List Char :=
  (s.dropWhile pyIsSpace).rdropWhile pyIsSpace

/-- The bracket stripping of `build_regex_from_example`: one optional leading
`[` and one optional trailing `]`. -/
def bracketStrip (s : List Char) : List Char :=
  let s1 := if s.head? == some '[' then s.tail else s
  if s1.getLast? == some ']' then s1.dropLast else s1

/-- Token classes of the learned pattern (`build_regex_from_example`) and of
the built-in clock-time matcher `TIME_CORE_RE`.  Each constructor is one
regex fragment the Python code emits:
`letters` is `[A-Za-z]+`, `month` is `[A-Za-z]{3,9}`, `dshort` is `\d{1,2}`,
`dlong` is `\d{1,4}`, `dexact2` is `\d{2}` (from `TIME_CORE_RE`),
`dotfrac` is `\.\d{1,9}`, `optfrac` is `(?:\.\d{1,6})?` (from `TIME_CORE_RE`),
`ws` is `\s+` (a literal space after the final `.replace`), and `lit c` is the
(escaped) literal character `c`. -/
inductive Tok where
  | letters
  | month
  | dshort
  | dlong
  | dexact2
  | dotfrac
  | optfrac
  | ws
  | lit (c : Char)
deriving DecidableEq, Repr

/-- Month-name shape check `MONTH_RE.fullmatch(word)` for the pattern
`(?:Jan|...|Dec)[a-z]*` compiled with `re.I`: a case-insensitive three-letter
month abbreviation followed by letters (under `re.I` the class `[a-z]` also
matches capitals). -/
def monthShaped (w : List Char) : Bool :=
  decide (3 ≤ w.length) &&
  ((w.take 3).map Char.toLower ∈
    [['j','a','n'], ['f','e','b'], ['m','a','r'], ['a','p','r'],
     ['m','a','y'], ['j','u','n'], ['j','u','l'], ['a','u','g'],
     ['s','e','p'], ['o','c','t'], ['n','o','v'], ['d','e','c']]) &&
  (w.drop 3).all pyAlpha

/-- The tokenizer loop of `build_regex_from_example`.  `prev` is the character
just before the current position (`s[i-1]`), consulted only for the
colon-adjacency test of digit runs.  Letter runs become `letters` or `month`,
digit runs become `dshort` when adjacent to a colon and `dlong` otherwise, a
literal dot becomes `dotfrac`, a space becomes `ws` (the Python code emits a
literal space which the final `.replace(' ', "\\s+")` rewrites), and any other
character is an escaped literal. -/
def tfTokensGo : Nat → Option Char → List Char → List Tok
  | 0, _, _ => []
  | _, _, [] => []
  | fuel + 1, prev, c :: cs =>
    if pyAlpha c then
      let run := c :: cs.takeWhile pyAlpha
      let rest := cs.dropWhile pyAlpha
      (if monthShaped run then Tok.month else Tok.letters) ::
        tfTokensGo fuel (some (run.getLastD c)) rest
    else if pyDigit c then
      let run := c :: cs.takeWhile pyDigit
      let rest := cs.dropWhile pyDigit
      let colonAdj := (prev == some ':') || (rest.head? == some ':')
      (if colonAdj then Tok.dshort else Tok.dlong) ::
        tfTokensGo fuel (some (run.getLastD c)) rest
    else if c == '.' then
      Tok.dotfrac :: tfTokensGo fuel (some '.') cs
    else if c == ' ' then
      Tok.ws :: tfTokensGo fuel (some ' ') cs
    else
      Tok.lit c :: tfTokensGo fuel (some c) cs

/-- The tokenizer at its natural fuel: every loop step consumes at least one
character, so `s.length` rounds always complete the scan. -/
def tfTokens (prev : Option Char) (s : List Char) : List Tok :=
  tfTokensGo s.length prev s

/-- Model of `build_regex_from_example`, at the token level: strip whitespace, strip
one optional pair of surrounding brackets, tokenize.  The compiled pattern is
`\[?(core)\]?` with `core` the concatenation of the tokens. -/
def tfBuild (ex : List Char) : List Tok :=
  tfTokens none (bracketStrip (pyStrip ex))

/-- Greedy repetition with backtracking: try consuming `k` class characters
(the caller caps `k` by the run length), handing the remainder to the
continuation `next`, and back off one character at a time down to the
minimum `lo`. -/
def tryFromK (lo : Nat) (next : List Char → Option (List Char)) (s : List Char) :
    Nat → Option (List Char)
  | 0 =>
    if lo = 0 then next s else none
  | k + 1 =>
    if k + 1 < lo then none
    else
      match next (s.drop (k + 1)) with
      | some r => some (s.take (k + 1) ++ r)
      | none => tryFromK lo next s k

/-- Backtracking matcher for a token sequence against a prefix of the input,
with Python `re` priority: greedy classes try the longest feasible repetition
first.  Returns the consumed characters (the content of the capture group) on
success. -/
def coreG : List Tok → List Char → Option (List Char)
  | [], _ => some []
  | Tok.lit c :: ts, d :: s =>
    if d = c then (coreG ts s).map (fun r => c :: r) else none
  | Tok.lit _ :: _, [] => none
  | Tok.letters :: ts, s =>
    tryFromK 1 (coreG ts) s (min s.length ((s.takeWhile pyAlpha).length))
  | Tok.month :: ts, s =>
    tryFromK 3 (coreG ts) s (min 9 ((s.takeWhile pyAlpha).length))
  | Tok.dshort :: ts, s =>
    tryFromK 1 (coreG ts) s (min 2 ((s.takeWhile pyDigit).length))
  | Tok.dlong :: ts, s =>
    tryFromK 1 (coreG ts) s (min 4 ((s.takeWhile pyDigit).length))
  | Tok.dexact2 :: ts, s =>
    tryFromK 2 (coreG ts) s (min 2 ((s.takeWhile pyDigit).length))
  | Tok.dotfrac :: ts, '.' :: s =>
    (tryFromK 1 (coreG ts) s (min 9 ((s.takeWhile pyDigit).length))).map
      (fun r => '.' :: r)
  | Tok.dotfrac :: _, _ => none
  | Tok.optfrac :: ts, '.' :: s =>
    match (tryFromK 1 (coreG ts) s (min 6 ((s.takeWhile pyDigit).length))).map
        (fun r => '.' :: r) with
    | some r => some r
    | none => coreG ts ('.' :: s)
  | Tok.optfrac :: ts, s => coreG ts s
  | Tok.ws :: ts, s =>
    tryFromK 1 (coreG ts) s (min s.length ((s.takeWhile pyIsSpace).length))

/-- Leftmost search of the learned pattern `\[?(core)\]?` in a line,
returning the capture group of the first (leftmost) match.  At each position
the optional leading `\[?` greedily consumes a `[` when one is present,
backtracking to an empty match when the core does not follow. -/
def userSearch (toks : List Tok) : List Char → Option (List Char)
  | [] => coreG toks []
  | c :: s' =>
    let here : Option (List Char) :=
      if c = '[' then
        match coreG toks s' with
        | some g => some g
        | none => coreG toks (c :: s')
      else coreG toks (c :: s')
    match here with
    | some g => some g
    | none => userSearch toks s'

/-- Leftmost search of a plain (unwrapped) token pattern, returning the match
position together with the matched characters. -/
def plainSearch (toks : List Tok) (i : Nat) : List Char → Option (Nat × List Char)
  | [] => (coreG toks []).map (fun g => (i, g))
  | c :: s' =>
    match coreG toks (c :: s') with
    | some g => some (i, g)
    | none => plainSearch toks (i + 1) s'

end Tfind

namespace Tfind

/-- Value of `int(...)` on a digit string, positionally. -/
def natOfDigits : List Char → Nat
  | [] => 0
  | c :: cs => (c.toNat - 48) * 10 ^ cs.length + natOfDigits cs

/-- Exactly 10 or exactly 13 ASCII digits. -/
def epochDigitsOk (t : List Char) : Bool :=
  t.all pyDigit && (t.length == 10 || t.length == 13)

/-- Model of `EPOCH_RE.match(value)` for `^\d{10}(?:\d{3})?$`: Python's `$` also
matches just before one trailing newline. -/
def epochREMatch (s : List Char) : Bool :=
  epochDigitsOk s || (s.getLast? == some '\n' && epochDigitsOk s.dropLast)

/-- The largest argument `datetime.fromtimestamp` accepts (seconds of
9999-12-31T23:59:59); beyond it the call raises, which `parse_epoch`
catches and turns into `None`. -/
def pyFromtimestampMax : Nat := 253402300799

/-- Model of `parse_epoch`, with the result expressed as epoch milliseconds: a string
of exactly 10 digits is Unix seconds, a string of exactly 13 digits
(`len(value) == 13`) is Unix milliseconds; any other shape is rejected by the
pattern gate, and an out-of-range seconds value makes the conversion raise,
which the function catches and maps to `None`. -/
def parse_epoch (s : List Char) : Option Int :=
  if epochREMatch s then
    let v := natOfDigits (s.takeWhile pyDigit)
    if s.length == 13 then some (v : Int)
    else if v ≤ pyFromtimestampMax then some ((v : Int) * 1000) else none
  else none

/-- A parsed point in time (`datetime`): a calendar date and a
millisecond-of-day.  The date is `none` when it is the ambient current date —
the default date the external flexible parser substitutes for inputs that
carry only a time of day.  A concrete date is encoded as `y*10000+m*100+d`,
which orders dates correctly. -/
structure PDT where
  pdate : Option Nat
  pms : Nat
deriving DecidableEq, Repr

/-- Date order; `none` (the ambient current date) meets a concrete date only
outside the runs verified here, so that mixed case is fixed arbitrarily. -/
def dateLtB : Option Nat → Option Nat → Bool
  | none, none => false
  | none, some _ => true
  | some _, none => false
  | some a, some b => decide (a < b)

/-- Strict `datetime` order, lexicographic on (date, time-of-day). -/
def pdtLtB (a b : PDT) : Bool :=
  dateLtB a.pdate b.pdate || (a.pdate == b.pdate && decide (a.pms < b.pms))

/-- Non-strict `datetime` order. -/
def pdtLeB (a b : PDT) : Bool :=
  dateLtB a.pdate b.pdate || (a.pdate == b.pdate && decide (a.pms ≤ b.pms))

/-- Civil date from a count of days since 1970-01-01 (proleptic Gregorian). -/
def civilFromDays (z0 : Int) : Nat × Nat × Nat :=
  let z := z0 + 719468
  let era := (if 0 ≤ z then z else z - 146096) / 146097
  let doe := z - era * 146097
  let yoe := (doe - doe / 1460 + doe / 36524 - doe / 146096) / 365
  let y := yoe + era * 400
  let doy := doe - (365 * yoe + yoe / 4 - yoe / 100)
  let mp := (5 * doy + 2) / 153
  let d := doy - (153 * mp + 2) / 5 + 1
  let m := mp + (if mp < 10 then 3 else -9)
  ((y + (if m ≤ 2 then 1 else 0)).toNat, m.toNat, d.toNat)

/-- Model of `datetime.fromtimestamp` on whole milliseconds (UTC; the local-timezone
offset of the Python call is outside the scope of every claim here). -/
def pdtOfEpochMs (ms : Int) : PDT :=
  let day := ms / 86400000
  let ymd := civilFromDays day
  ⟨some (ymd.1 * 10000 + ymd.2.1 * 100 + ymd.2.2), (ms % 86400000).toNat⟩

/-- The twelve month-name abbreviations, lowercased. -/
def monthsList : List (List Char) :=
  [['j','a','n'], ['f','e','b'], ['m','a','r'], ['a','p','r'],
   ['m','a','y'], ['j','u','n'], ['j','u','l'], ['a','u','g'],
   ['s','e','p'], ['o','c','t'], ['n','o','v'], ['d','e','c']]

/-- Model of `MONTH_RE.search(s)`: some position carries a case-insensitive
three-letter month abbreviation. -/
def monthSearchB (s : List Char) : Bool :=
  (List.range s.length).any fun i =>
    match s.get? i, s.get? (i + 1), s.get? (i + 2) with
    | some a, some b, some c => [a.toLower, b.toLower, c.toLower] ∈ monthsList
    | _, _, _ => false

/-- Word character for the `\b` boundary (`\w`, ASCII). -/
def isWordChar (c : Char) : Bool := pyAlpha c || pyDigit c || c == '_'

/-- Digit at index `i` (false out of range). -/
def isDigitAt (s : List Char) (i : Nat) : Bool :=
  match s.get? i with
  | some c => pyDigit c
  | none => false

/-- Non-word (or out-of-range) at index `i`: one side of a `\b` boundary. -/
def nonWordAt (s : List Char) (i : Nat) : Bool :=
  match s.get? i with
  | some c => !isWordChar c
  | none => true

/-- Model of the year search (four digits delimited by word boundaries. -/
def hasYearB (s : List Char) : Bool :=
  (List.range s.length).any fun i =>
    isDigitAt s i && isDigitAt s (i + 1) && isDigitAt s (i + 2) &&
    isDigitAt s (i + 3) && (i == 0 || nonWordAt s (i - 1)) && nonWordAt s (i + 4)

/-- One alternative of the numeric day-date pattern (word boundary, one or two digits, dash or slash, one or two digits, word boundary) at position `i` with run
lengths `a` and `b`. -/
def mdAt (s : List Char) (i a b : Nat) : Bool :=
  (i == 0 || nonWordAt s (i - 1)) &&
  (List.range a).all (fun j => isDigitAt s (i + j)) &&
  (match s.get? (i + a) with
   | some c => c == '-' || c == '/'
   | none => false) &&
  (List.range b).all (fun j => isDigitAt s (i + a + 1 + j)) &&
  nonWordAt s (i + a + 1 + b)

/-- The `has_month_day` numeric test: search for one or two digits, a dash or a slash, then one or two digits, the whole delimited by word boundaries. -/
def hasMonthDayNumB (s : List Char) : Bool :=
  (List.range s.length).any fun i =>
    mdAt s i 1 1 || mdAt s i 1 2 || mdAt s i 2 1 || mdAt s i 2 2

/-- Model of the clock-time search (one or two digits, a colon, two digits); a two-digit-hour match contains a
one-digit-hour match one position later, so one digit before the colon and
two after it is an equivalent success test. -/
def hasTimeB (s : List Char) : Bool :=
  (List.range s.length).any fun i =>
    isDigitAt s i &&
    (match s.get? (i + 1) with
     | some c => c == ':'
     | none => false) &&
    isDigitAt s (i + 2) && isDigitAt s (i + 3)

/-- Model of `input_is_time_only`: a clock time with no year, no numeric day-date and no month name. -/
def input_is_time_only (s : List Char) : Bool :=
  hasTimeB s && !(hasYearB s || hasMonthDayNumB s || monthSearchB s)

/-- The `lacks_date` test of `parse_line_timestamp` (same three patterns). -/
def lacksDateB (s : List Char) : Bool :=
  !hasYearB s && !hasMonthDayNumB s && !monthSearchB s

/-- Digit-run split helper for the external-parser model. -/
def takeDigits (s : List Char) : List Char × List Char :=
  (s.takeWhile pyDigit, s.dropWhile pyDigit)

/-- An exact `H:MM:SS` or `HH:MM:SS` clock time, as milliseconds of day. -/
def parseClock (s : List Char) : Option Nat :=
  let h := takeDigits s
  if h.1.length == 1 || h.1.length == 2 then
    match h.2 with
    | ':' :: r2 =>
      let m := takeDigits r2
      if m.1.length == 2 then
        match m.2 with
        | ':' :: r4 =>
          let ss := takeDigits r4
          if ss.1.length == 2 && ss.2.isEmpty then
            let hv := natOfDigits h.1
            let mv := natOfDigits m.1
            let sv := natOfDigits ss.1
            if hv < 24 && mv < 60 && sv < 60 then
              some ((hv * 3600 + mv * 60 + sv) * 1000)
            else none
          else none
        | _ => none
      else none
    | _ => none
  else none

/-- An exact `YYYY-MM-DD` date prefix, as encoded date plus the remainder. -/
def parseYmd (s : List Char) : Option (Nat × List Char) :=
  let y := takeDigits s
  if y.1.length == 4 then
    match y.2 with
    | '-' :: r2 =>
      let mo := takeDigits r2
      if mo.1.length == 2 then
        match mo.2 with
        | '-' :: r4 =>
          let d := takeDigits r4
          if d.1.length == 2 then
            let mv := natOfDigits mo.1
            let dv := natOfDigits d.1
            if 1 ≤ mv && mv ≤ 12 && 1 ≤ dv && dv ≤ 31 then
              some (natOfDigits y.1 * 10000 + mv * 100 + dv, d.2)
            else none
          else none
        | _ => none
      else none
    | _ => none
  else none

/-- Modelled from the spec: the external flexible natural-language date
parser (`dateutil.parser.parse`), an optional capability the repository
imports but does not contain (§4.3, §9 of the spec).  The model covers the
shapes the verified runs feed it: a bare clock time, which parses to the
ambient current date (`pdate = none`, the parser's default date), an
absolute `YYYY-MM-DD HH:MM:SS` date-time, a bare `YYYY-MM-DD` date
(midnight), and — in fuzzy mode — an absolute date-time followed by
non-time trailing text.  Everything else fails (`none`), as the real parser
raises on text with no recognizable date. -/
def dateutilParse (fuzzy : Bool) (s : List Char) : Option PDT :=
  match parseClock s with
  | some ms => some ⟨none, ms⟩
  | none =>
    match parseYmd s with
    | none => none
    | some (dc, rest) =>
      match rest with
      | [] => some ⟨some dc, 0⟩
      | ' ' :: rest' =>
        match parseClock rest' with
        | some ms => some ⟨some dc, ms⟩
        | none =>
          if fuzzy then
            match parseClock (rest'.takeWhile (fun c => c ≠ ' ')) with
            | some ms => some ⟨some dc, ms⟩
            | none => none
          else none
      | _ => none

/-- The optional dependency `dateutil` resolved as importable, the
configuration every claim here is about. -/
def dateutilAvailable : Bool := true

/-- Model of `parse_user_datetime`: the epoch path first, then the flexible parser. -/
def parse_user_datetime (s : List Char) : Option PDT :=
  match parse_epoch s with
  | some ms => some (pdtOfEpochMs ms)
  | none => dateutilParse false s

/-- Model of `parse_line_timestamp`: epoch path, then fuzzy flexible parse, then the
anchor substitution — when the text shows no year, no numeric day-date and no month name and an anchor date is available, the anchor date replaces the
parsed date while the time of day is retained. -/
def parse_line_timestamp (ts_text : List Char) (date_anchor : Option (Option Nat)) :
    Option PDT :=
  match parse_epoch ts_text with
  | some ms => some (pdtOfEpochMs ms)
  | none =>
    match dateutilParse true ts_text with
    | none => none
    | some dt =>
      match date_anchor with
      | some ad => if lacksDateB ts_text then some ⟨ad, dt.pms⟩ else some dt
      | none => some dt

end Tfind

namespace Tfind

/-- Model of `f.seek(p); f.readline()`: the characters from offset `p` up to and
including the next newline (or up to end of file), together with the
offset after the read (`f.tell()`). -/
def readlineFrom (f : List Char) (p : Nat) : List Char × Nat :=
  let rest := f.drop p
  let pre := rest.takeWhile (fun c => c != '\n')
  if pre.length = rest.length then (rest, p + rest.length)
  else (pre ++ ['\n'], p + pre.length + 1)

/-- The complete line beginning at offset `p`. -/
def lineAt (f : List Char) (p : Nat) : List Char := (readlineFrom f p).1

/-- Offset `q` is the start offset of a line: offset 0, or an offset just after a
newline. -/
def isLineStartB (f : List Char) (q : Nat) : Bool :=
  q == 0 ||
  (match f.get? (q - 1) with
   | some c => c == '\n'
   | none => false)

/-- Iterating a file handle line by line from offset `p` (`for raw in f`
after `f.seek(p)`); the fuel is an upper bound on the number of lines. -/
def linesFrom (f : List Char) : Nat → Nat → List (List Char)
  | 0, _ => []
  | fuel + 1, p =>
    let r := readlineFrom f p
    if r.1.isEmpty then [] else r.1 :: linesFrom f fuel r.2

/-- The loop body of `binary_search_start`: the half-open offset window
`[low, hi)` shrinks by seeking to the midpoint, discarding the remainder of
the line under the cursor, reading the next complete line, and comparing its
parsed timestamp to the target; an unparsable or too-early line advances
`low` to one past that line's start offset, otherwise `hi` comes down to the
midpoint.  An empty read (end of file) breaks out of the loop. -/
def bsearchGo {τ : Type} (parse : List Char → Option τ) (ltB : τ → τ → Bool)
    (f : List Char) (target : τ) : Nat → Nat → Nat → Nat
  | 0, low, _ => low
  | fuel + 1, low, hi =>
    if low < hi then
      let mid := (low + hi) / 2
      let pos := (readlineFrom f mid).2
      let line := (readlineFrom f pos).1
      if line.isEmpty then low
      else
        match parse line with
        | none => bsearchGo parse ltB f target fuel (pos + 1) hi
        | some ts =>
          if ltB ts target then bsearchGo parse ltB f target fuel (pos + 1) hi
          else bsearchGo parse ltB f target fuel low mid
    else low

/-- Model of `binary_search_start`: binary search over `[0, file_size)`.  Each
iteration either raises `low` past the examined line's start or lowers `hi`
to the midpoint, so the window shrinks every round and `file_size + 1`
rounds of fuel always suffice for the loop to reach its Python exit
condition. -/
def binary_search_start {τ : Type} (parse : List Char → Option τ)
    (ltB : τ → τ → Bool) (f : List Char) (target : τ) : Nat :=
  bsearchGo parse ltB f target (f.length + 1) 0 f.length

/-- The streaming loop of `print_range` (highlighting disabled, a terminal
formatting concern outside this design's scope): extract, skip falsy
(missing or empty) extractions, parse, skip parse failures, stop on the
first timestamp beyond `endT`, emit lines inside `[startT, endT]`. -/
def streamEmit {τ : Type} (extract : List Char → Option (List Char))
    (parse : List Char → Option τ) (ltB leB : τ → τ → Bool)
    (startT endT : τ) : List (List Char) → List (List Char)
  | [] => []
  | l :: ls =>
    match extract l with
    | none => streamEmit extract parse ltB leB startT endT ls
    | some tx =>
      if tx.isEmpty then streamEmit extract parse ltB leB startT endT ls
      else
        match parse tx with
        | none => streamEmit extract parse ltB leB startT endT ls
        | some ts =>
          if ltB endT ts then []
          else if leB startT ts && leB ts endT then
            l :: streamEmit extract parse ltB leB startT endT ls
          else streamEmit extract parse ltB leB startT endT ls

/-- Constant `TIME_CORE_RE`, token form of `\d{1,2}:\d{2}:\d{2}(?:\.\d{1,6})?`. -/
def timeCoreToks : List Tok :=
  [Tok.dshort, Tok.lit ':', Tok.dexact2, Tok.lit ':', Tok.dexact2, Tok.optfrac]

/-- The generic fallback of `Extractor.extract`: a clock-time match widened
by up to 40 characters of context on each side and stripped; else, with the
flexible parser available, any line containing a digit is returned whole. -/
def heurExtract (line : List Char) : Option (List Char) :=
  match plainSearch timeCoreToks 0 line with
  | some (i, g) =>
    let a := i - 40
    let b := min line.length (i + g.length + 40)
    some (pyStrip ((line.drop a).take (b - a)))
  | none =>
    if dateutilAvailable && line.any pyDigit then some line else none

/-- Model of `Extractor.extract`: the learned pattern's capture group when the
pattern is present and matches, else the generic fallback. -/
def extract (userToks : Option (List Tok)) (line : List Char) :
    Option (List Char) :=
  match userToks with
  | some tk =>
    match userSearch tk line with
    | some g => some g
    | none => heurExtract line
  | none => heurExtract line

/-- The per-line timestamp used by the binary search: extraction followed
by `parse_line_timestamp`, with Python's falsy test on the extracted text
(`if ts_text else None`). -/
def lineTs (userToks : Option (List Tok)) (anchor : Option (Option Nat))
    (line : List Char) : Option PDT :=
  match extract userToks line with
  | none => none
  | some tx => if tx.isEmpty then none else parse_line_timestamp tx anchor

/-- The scan loop of `find_first_date_anchor`: first line whose extracted
text parses (without an anchor) yields its date. -/
def findAnchorGo (userToks : Option (List Tok)) :
    List (List Char) → Option (Option Nat)
  | [] => none
  | l :: ls =>
    match extract userToks l with
    | none => findAnchorGo userToks ls
    | some tx =>
      if tx.isEmpty then findAnchorGo userToks ls
      else
        match parse_line_timestamp tx none with
        | some dt => some dt.pdate
        | none => findAnchorGo userToks ls

/-- Model of `find_first_date_anchor`: scan at most 2000 lines from the head of the
file. -/
def findAnchor (userToks : Option (List Tok)) (f : List Char) :
    Option (Option Nat) :=
  findAnchorGo userToks ((linesFrom f (f.length + 1) 0).take 2000)

/-- The body of `print_range` after bound validation and the swap: learn the
pattern from whichever bound carries date structure, resolve the date anchor
when a bound is time-only, substitute the anchor date into time-only bounds,
locate the range start by binary search, and stream from there. -/
def printRangeCore (f start_s end_s : List Char) (start0 end0 : PDT) :
    List (List Char) :=
  let userToks : Option (List Tok) :=
    if !input_is_time_only start_s || !input_is_time_only end_s then
      some (tfBuild (if !input_is_time_only start_s then start_s else end_s))
    else some (tfBuild start_s)
  let needAnchor := input_is_time_only start_s || input_is_time_only end_s
  let anchor := if needAnchor then findAnchor userToks f else none
  let bounds : PDT × PDT :=
    match anchor with
    | some ad =>
      (if input_is_time_only start_s then ⟨ad, start0.pms⟩ else start0,
       if input_is_time_only end_s then ⟨ad, end0.pms⟩ else end0)
    | none => (start0, end0)
  let sp := binary_search_start (lineTs userToks anchor) pdtLtB f bounds.1
  streamEmit (extract userToks) (fun tx => parse_line_timestamp tx anchor)
    pdtLtB pdtLeB bounds.1 bounds.2 (linesFrom f (f.length + 1) sp)

/-- Bound validation and normalization of `print_range` (lines 191-196):
both bounds must parse, else the run exits fatally (`none`); a reversed
pair is swapped before anything else happens. -/
def resolveBounds (start_s end_s : List Char) : Option (PDT × PDT) :=
  match parse_user_datetime start_s, parse_user_datetime end_s with
  | some a, some b => some (if pdtLtB b a then (b, a) else (a, b))
  | _, _ => none

/-- Model of `print_range` end to end: `none` is the fatal input-validation exit,
`some out` the list of emitted lines. -/
def runTfind (f start_s end_s : List Char) : Option (List (List Char)) :=
  match resolveBounds start_s end_s with
  | none => none
  | some (a, b) => some (printRangeCore f start_s end_s a b)

end Tfind

namespace Tfind

/-- Outcome of `main`: a usage exit (recording the stream the message went
to and the exit code), the unhandled unpacking error on more than three
positional arguments, or a dispatch into `print_range`. -/
inductive MainOutcome where
  | usageExit (toStderr : Bool) (code : Nat)
  | unpackError
  | run (path start_s end_s : List Char) (readability : Bool) (color : List Char)
deriving DecidableEq, Repr

/-- Python `a.startswith(pat)`. -/
def startsWithL : List Char → List Char → Bool
  | [], _ => true
  | _ :: _, [] => false
  | a :: as, b :: bs => a == b && startsWithL as bs

/-- The flag loop of `main`: `-r` and `--readability` set the flag,
`--readability=COLOR` also sets the color (everything after the first `=`),
anything else is a positional argument, in order. -/
def parseArgsGo : List (List Char) → Bool → List Char → List (List Char) →
    Bool × List Char × List (List Char)
  | [], r, c, acc => (r, c, acc)
  | a :: rest, r, c, acc =>
    if a = "-r".data || a = "--readability".data then
      parseArgsGo rest true c acc
    else if startsWithL "--readability=".data a then
      parseArgsGo rest true (a.drop "--readability=".data.length) acc
    else parseArgsGo rest r c (acc ++ [a])

/-- Model of `main(argv)`: flags are filtered out of `argv[1:]`; fewer than three
positional arguments print the usage line (Python's `print`, hence standard
output) and exit with code 1; exactly three dispatch to `print_range`; more
than three make the tuple unpacking raise. -/
def mainModel (argv : List (List Char)) : MainOutcome :=
  let p := parseArgsGo (argv.drop 1) false "cyan".data []
  if p.2.2.length < 3 then MainOutcome.usageExit false 1
  else
    match p.2.2 with
    | [path, s, e] => MainOutcome.run path s e p.1 p.2.1
    | _ => MainOutcome.unpackError

/-- A UTF-8 continuation byte. -/
def utf8Cont (b : Nat) : Bool := 128 ≤ b && b ≤ 191

/-- Valid first continuation byte after a three-byte lead (excludes overlong
forms and surrogates, as CPython's decoder does). -/
def utf8Cont3 (b c1 : Nat) : Bool :=
  (b == 224 && (160 ≤ c1 && c1 ≤ 191)) ||
  ((225 ≤ b && b ≤ 236) && utf8Cont c1) ||
  (b == 237 && (128 ≤ c1 && c1 ≤ 159)) ||
  ((238 ≤ b && b ≤ 239) && utf8Cont c1)

/-- Valid first continuation byte after a four-byte lead (excludes overlong
forms and code points beyond U+10FFFF). -/
def utf8Cont4 (b c1 : Nat) : Bool :=
  (b == 240 && (144 ≤ c1 && c1 ≤ 191)) ||
  ((241 ≤ b && b ≤ 243) && utf8Cont c1) ||
  (b == 244 && (128 ≤ c1 && c1 ≤ 143))

/-- Model of `bytes.decode('utf-8', errors='ignore')`: standard UTF-8 decoding in
which every malformed sequence is dropped.  The model skips the offending
lead byte and rescans; since continuation bytes are never valid leads, this
produces the same text as CPython's maximal-subpart error ranges. -/
def utf8DecodeIgnoreGo : Nat → List Nat → List Char
  | 0, _ => []
  | _, [] => []
  | fuel + 1, b :: bs =>
    if b < 128 then Char.ofNat b :: utf8DecodeIgnoreGo fuel bs
    else if 194 ≤ b && b ≤ 223 then
      match bs with
      | c1 :: bs' =>
        if utf8Cont c1 then
          Char.ofNat ((b - 192) * 64 + (c1 - 128)) :: utf8DecodeIgnoreGo fuel bs'
        else utf8DecodeIgnoreGo fuel bs
      | [] => []
    else if 224 ≤ b && b ≤ 239 then
      match bs with
      | c1 :: c2 :: bs' =>
        if utf8Cont3 b c1 && utf8Cont c2 then
          Char.ofNat ((b - 224) * 4096 + (c1 - 128) * 64 + (c2 - 128)) ::
            utf8DecodeIgnoreGo fuel bs'
        else utf8DecodeIgnoreGo fuel bs
      | _ => utf8DecodeIgnoreGo fuel bs
    else if 240 ≤ b && b ≤ 244 then
      match bs with
      | c1 :: c2 :: c3 :: bs' =>
        if utf8Cont4 b c1 && utf8Cont c2 && utf8Cont c3 then
          Char.ofNat ((b - 240) * 262144 + (c1 - 128) * 4096 +
            (c2 - 128) * 64 + (c3 - 128)) :: utf8DecodeIgnoreGo fuel bs'
        else utf8DecodeIgnoreGo fuel bs
      | _ => utf8DecodeIgnoreGo fuel bs
    else utf8DecodeIgnoreGo fuel bs

/-- The decoder at its natural fuel (each round consumes at least one
byte). -/
def utf8DecodeIgnore (bs : List Nat) : List Char :=
  utf8DecodeIgnoreGo bs.length bs

/-- A reference decoder that follows the spec's words instead of the code:
"decoded permissively as UTF-8 with invalid byte sequences replaced", i.e.
`errors='replace'` semantics, emitting U+FFFD where `utf8DecodeIgnore`
drops.  Kept only to compare against the source's behavior. -/
def specDecodeReplaceGo : Nat → List Nat → List Char
  | 0, _ => []
  | _, [] => []
  | fuel + 1, b :: bs =>
    if b < 128 then Char.ofNat b :: specDecodeReplaceGo fuel bs
    else if 194 ≤ b && b ≤ 223 then
      match bs with
      | c1 :: bs' =>
        if utf8Cont c1 then
          Char.ofNat ((b - 192) * 64 + (c1 - 128)) :: specDecodeReplaceGo fuel bs'
        else Char.ofNat 65533 :: specDecodeReplaceGo fuel bs
      | [] => [Char.ofNat 65533]
    else if 224 ≤ b && b ≤ 239 then
      match bs with
      | c1 :: c2 :: bs' =>
        if utf8Cont3 b c1 && utf8Cont c2 then
          Char.ofNat ((b - 224) * 4096 + (c1 - 128) * 64 + (c2 - 128)) ::
            specDecodeReplaceGo fuel bs'
        else Char.ofNat 65533 :: specDecodeReplaceGo fuel bs
      | _ => Char.ofNat 65533 :: specDecodeReplaceGo fuel bs
    else if 240 ≤ b && b ≤ 244 then
      match bs with
      | c1 :: c2 :: c3 :: bs' =>
        if utf8Cont4 b c1 && utf8Cont c2 && utf8Cont c3 then
          Char.ofNat ((b - 240) * 262144 + (c1 - 128) * 4096 +
            (c2 - 128) * 64 + (c3 - 128)) :: specDecodeReplaceGo fuel bs'
        else Char.ofNat 65533 :: specDecodeReplaceGo fuel bs
      | _ => Char.ofNat 65533 :: specDecodeReplaceGo fuel bs
    else Char.ofNat 65533 :: specDecodeReplaceGo fuel bs

/-- The reference decoder at its natural fuel. -/
def specDecodeReplace (bs : List Nat) : List Char :=
  specDecodeReplaceGo bs.length bs

/-- The decode step of the streaming loop and of the binary search
(`raw.decode('utf-8', errors='ignore')` inside `try/except`): with
`errors='ignore'` the decode call never raises, so the `latin1` fallback arm
is unreachable and decoding is total by construction. -/
def decodeLine (bs : List Nat) : List Char := utf8DecodeIgnore bs

end Tfind

namespace Tfind

/-- Comparison of optional timestamps used to state file sortedness. -/
def leOpt : Option Int → Option Int → Bool
  | some a, some b => decide (a ≤ b)
  | _, _ => false

/-- All line-start offsets of the file (each strictly below the file size). -/
def startsList (f : List Char) : List Nat :=
  (List.range f.length).filter (isLineStartB f)

/-- Every element relates by `leOpt` to every later element. -/
def pairwiseLeB : List (Option Int) → Bool
  | [] => true
  | x :: xs => xs.all (fun y => leOpt x y) && pairwiseLeB xs

/-- The sortedness invariant of §3 as a decidable check: every complete line
of the file has a parsed timestamp and those timestamps are non-decreasing
in file order. -/
def sortedParsedB (parse : List Char → Option Int) (f : List Char) : Bool :=
  (startsList f).all (fun q => (parse (lineAt f q)).isSome) &&
  pairwiseLeB ((startsList f).map (fun q => parse (lineAt f q)))

/-- Restriction of the example-string grammar under which the learned
pattern is guaranteed to match the example it was built from: colon-adjacent
digit runs carry at most two digits and other digit runs at most four (the
widths of the emitted classes), a month-shaped letter run carries at most
nine letters (the width of the emitted class), and every literal dot is
followed by two to eleven digits (the emitted `\.\d{1,9}` plus the following
digit class need at least two and can span at most eleven).  The recursion
mirrors the tokenizer's runs. -/
def goodRunsGo : Nat → Option Char → List Char → Bool
  | 0, _, _ => true
  | _, _, [] => true
  | fuel + 1, prev, c :: cs =>
    if pyAlpha c then
      let run := c :: cs.takeWhile pyAlpha
      ((!monthShaped run) || decide (run.length ≤ 9)) &&
        goodRunsGo fuel (some (run.getLastD c)) (cs.dropWhile pyAlpha)
    else if pyDigit c then
      let run := c :: cs.takeWhile pyDigit
      let rest := cs.dropWhile pyDigit
      let colonAdj := (prev == some ':') || (rest.head? == some ':')
      (if prev == some '.' then
        decide (2 ≤ run.length) && decide (run.length ≤ 11)
       else decide (run.length ≤ if colonAdj then 2 else 4)) &&
        goodRunsGo fuel (some (run.getLastD c)) rest
    else if c == '.' then
      (match cs with
       | d :: _ => pyDigit d
       | [] => false) &&
        goodRunsGo fuel (some '.') cs
    else
      goodRunsGo fuel (some c) cs

/-- The whole-example restriction for the round-trip property, at the same
fuel as the tokenizer. -/
def goodExampleB (ex : List Char) : Bool :=
  goodRunsGo (bracketStrip (pyStrip ex)).length none (bracketStrip (pyStrip ex))

/-- Scenario A's file: three lines with ascending timestamps. -/
def scenarioFile : List Char :=
  ("2024-01-01 10:00:00 A\n2024-01-01 10:00:05 B\n2024-01-01 10:00:10 C\n").data

/-- A three-line sorted file used to probe `binary_search_start` (line
starts 0, 7 and 14; size 21). -/
def probeFile : List Char := "aaaa 1\nbbbb 2\ncccc 3\n".data

/-- Timestamps of `probeFile`'s lines: 1, 2 and 3. -/
def probeParse (l : List Char) : Option Int :=
  if l = "aaaa 1\n".data then some 1
  else if l = "bbbb 2\n".data then some 2
  else if l = "cccc 3\n".data then some 3
  else none

/-- Extraction used in the streaming witnesses: the line itself. -/
def idExtract (l : List Char) : Option (List Char) := some l

/-- Line timestamps used in the streaming witnesses. -/
def probeParse2 (l : List Char) : Option Int :=
  if l = ['a'] then some 5 else if l = ['b'] then some 1 else none

end Tfind

namespace Tfind

theorem takeWhile_length_le (p : Char → Bool) (l : List Char) :
    (l.takeWhile p).length ≤ l.length := by
  induction l with
  | nil => simp
  | cons c cs ih =>
    by_cases h : p c <;> simp [List.takeWhile_cons, h]
    omega

theorem pyDigit_toNat {c : Char} (h : pyDigit c = true) :
    48 ≤ c.toNat ∧ c.toNat ≤ 57 := by
  simpa [pyDigit] using h

theorem natOfDigits_lt_pow (s : List Char) (hs : s.all pyDigit = true) :
    natOfDigits s < 10 ^ s.length := by
  induction s with
  | nil => simp [natOfDigits]
  | cons c cs ih =>
    simp only [List.all_cons, Bool.and_eq_true] at hs
    have hc : c.toNat - 48 ≤ 9 := by
      have := pyDigit_toNat hs.1
      omega
    have ih' := ih hs.2
    have hmul : (c.toNat - 48) * 10 ^ cs.length ≤ 9 * 10 ^ cs.length :=
      Nat.mul_le_mul_right _ hc
    have hpow : 10 ^ (cs.length + 1) = 10 * 10 ^ cs.length := by ring
    simp only [natOfDigits, List.length_cons, hpow]
    omega

/-- C4: a string of exactly 10 digits is parsed by the epoch path as Unix
seconds (result: its value in milliseconds, times 1000), a string of exactly
13 digits as Unix milliseconds, and a digit-only string of any other length
is rejected by the epoch path, so that `parse_user_datetime` falls through
to the flexible parser. -/
theorem parse_epoch_digit_lengths (s : List Char) (hd : s.all pyDigit = true) :
    (s.length = 10 → parse_epoch s = some ((natOfDigits s : Int) * 1000)) ∧
    (s.length = 13 → parse_epoch s = some ((natOfDigits s : Int))) ∧
    (s.length ≠ 10 → s.length ≠ 13 →
      parse_epoch s = none ∧ parse_user_datetime s = dateutilParse false s) := by
  have htw : s.takeWhile pyDigit = s :=
    List.takeWhile_eq_self_iff.mpr (by
      intro x hx
      exact (List.all_eq_true.mp hd) x hx)
  refine ⟨?_, ?_, ?_⟩
  · intro h10
    have hm : epochREMatch s = true := by
      simp [epochREMatch, epochDigitsOk, hd, h10]
    have hv := natOfDigits_lt_pow s hd
    rw [h10] at hv
    have hb : natOfDigits s ≤ pyFromtimestampMax := by
      simp only [pyFromtimestampMax]
      norm_num at hv
      omega
    rw [parse_epoch, if_pos hm, htw]
    simp [h10, hb]
  · intro h13
    have hm : epochREMatch s = true := by
      simp [epochREMatch, epochDigitsOk, hd, h13]
    rw [parse_epoch, if_pos hm, htw]
    simp [h13]
  · intro h10 h13
    have hok : epochDigitsOk s = false := by
      simp [epochDigitsOk, hd, h10, h13]
    have hlast : (s.getLast? == some '\n') = false := by
      cases hgl : s.getLast? with
      | none => rfl
      | some c =>
        have hmem : c ∈ s := List.mem_of_mem_getLast? (by simp [hgl])
        have hdc := pyDigit_toNat ((List.all_eq_true.mp hd) c hmem)
        have : c ≠ '\n' := by
          intro he
          rw [he] at hdc
          exact absurd hdc (by decide)
        simp [this]
    have hm : epochREMatch s = false := by
      simp [epochREMatch, hok, hlast]
    have hpe : parse_epoch s = none := by
      rw [parse_epoch, if_neg (by simp [hm])]
    exact ⟨hpe, by rw [parse_user_datetime, hpe]⟩

/-- Witness for `parse_epoch_digit_lengths` at the 10-digit string
`"1700000000"`. -/
theorem parse_epoch_digit_lengths_witness :
    parse_epoch "1700000000".data = some ((natOfDigits "1700000000".data : Int) * 1000) :=
  (parse_epoch_digit_lengths "1700000000".data (by decide)).1 (by decide)

end Tfind

namespace Tfind

/-- C2: for Scenario A's three-line file and the time-only bounds
`"10:00:03"` and `"10:00:08"`, the composed pipeline — bound parsing,
pattern learning from the start bound, anchor resolution over the file
head, anchor substitution into both bounds, byte-offset binary search and
forward streaming — writes exactly the middle line `"2024-01-01 10:00:05 B"`
to standard output. -/
theorem scenarioA_exact_output :
    runTfind scenarioFile "10:00:03".data "10:00:08".data =
      some ["2024-01-01 10:00:05 B\n".data] := by decide

/-- C3 counterexample: the example `"10:00:03.5"` is built from the
supported token grammar (three colon-adjacent digit runs, literal colons,
and a dot-fraction of one digit, within the spec's "dot + 1 to 9 digits"),
yet the matcher learned from it does not match the example itself: the dot
emits `\.\d{1,9}` while the digit run after the dot emits its own `\d{1,4}`
class, so the pattern demands at least two digits after the dot and the
example carries only one. -/
theorem patternLearner_roundtrip_fails :
    tfBuild "10:00:03.5".data =
      [Tok.dshort, Tok.lit ':', Tok.dshort, Tok.lit ':', Tok.dshort,
       Tok.dotfrac, Tok.dlong] ∧
    (userSearch (tfBuild "10:00:03.5".data) "10:00:03.5".data).isSome = false := by
  decide

/-- C7 counterexample: the end bound `"1700000000"` parses (epoch path),
the start bound `"x"` does not, and the run still aborts fatally — refuting
the claim that validation aborts only when both bounds fail. -/
theorem run_aborts_though_one_bound_parses :
    (parse_user_datetime "1700000000".data).isSome = true ∧
    runTfind ['a'] "x".data "1700000000".data = none := by decide

/-- C7 amended: the run aborts with the fatal input-validation error exactly
when at least one of the two bounds fails every parse strategy; it proceeds
only when both parse. -/
theorem run_fatal_iff_a_bound_unparsable (f start_s end_s : List Char) :
    runTfind f start_s end_s = none ↔
      (parse_user_datetime start_s = none ∨ parse_user_datetime end_s = none) := by
  rw [runTfind, resolveBounds]
  cases h1 : parse_user_datetime start_s <;>
    cases h2 : parse_user_datetime end_s <;> simp

/-- C9 counterexample: with no arguments the usage exit goes to standard
output (`print` writes to `sys.stdout`), not to standard error as claimed;
the exit code is 1. -/
theorem main_usage_not_on_stderr :
    mainModel ["tfind".data] = MainOutcome.usageExit false 1 ∧
    MainOutcome.usageExit false 1 ≠ MainOutcome.usageExit true 1 := by decide

/-- C9 amended: for every invocation with fewer than the three required
positional arguments, the program writes the usage message to standard
output and exits with code 1. -/
theorem main_usage_on_missing_args (argv : List (List Char))
    (h : (parseArgsGo (argv.drop 1) false "cyan".data []).2.2.length < 3) :
    mainModel argv = MainOutcome.usageExit false 1 := by
  rw [mainModel, if_pos h]

/-- Witness for `main_usage_on_missing_args`: the bare invocation. -/
theorem main_usage_on_missing_args_witness :
    mainModel ["tfind".data] = MainOutcome.usageExit false 1 :=
  main_usage_on_missing_args ["tfind".data] (by decide)

theorem pdtLtB_asymm (a b : PDT) (h : pdtLtB a b = true) : pdtLtB b a = false := by
  obtain ⟨da, ta⟩ := a
  obtain ⟨db, tb⟩ := b
  cases da <;> cases db <;>
    simp_all [pdtLtB, dateLtB, beq_iff_eq] <;> omega

/-- C10: when both bounds parse, the validated pair is reordered, before any
anchor resolution, search or streaming, to `(min, max)` of the two parsed
values: the swap happens exactly when the parsed end precedes the parsed
start, and the rest of the run (`printRangeCore`, which performs anchor
resolution, the binary search and the streaming) consumes the reordered
pair. -/
theorem resolveBounds_orders_bounds (start_s end_s : List Char) (a b : PDT)
    (ha : parse_user_datetime start_s = some a)
    (hb : parse_user_datetime end_s = some b) :
    ∃ x y, resolveBounds start_s end_s = some (x, y) ∧
      pdtLtB y x = false ∧
      ((pdtLtB b a = true ∧ (x, y) = (b, a)) ∨
        (pdtLtB b a = false ∧ (x, y) = (a, b))) ∧
      (∀ f, runTfind f start_s end_s = some (printRangeCore f start_s end_s x y)) := by
  by_cases hba : pdtLtB b a = true
  · refine ⟨b, a, ?_, pdtLtB_asymm b a hba, Or.inl ⟨hba, rfl⟩, ?_⟩
    · rw [resolveBounds, ha, hb]
      simp [hba]
    · intro f
      rw [runTfind, resolveBounds, ha, hb]
      simp [hba]
  · have hba' : pdtLtB b a = false := by
      cases h : pdtLtB b a
      · rfl
      · exact absurd h hba
    refine ⟨a, b, ?_, hba', Or.inr ⟨hba', rfl⟩, ?_⟩
    · rw [resolveBounds, ha, hb]
      simp [hba']
    · intro f
      rw [runTfind, resolveBounds, ha, hb]
      simp [hba']

/-- Witness for `resolveBounds_orders_bounds`: the reversed time-only pair
`"10:00:08"`, `"10:00:03"` is swapped into ascending order. -/
theorem resolveBounds_orders_bounds_witness :
    ∃ x y, resolveBounds "10:00:08".data "10:00:03".data = some (x, y) ∧
      pdtLtB y x = false ∧
      ((pdtLtB (PDT.mk none 36003000) (PDT.mk none 36008000) = true ∧
          (x, y) = (PDT.mk none 36003000, PDT.mk none 36008000)) ∨
        (pdtLtB (PDT.mk none 36003000) (PDT.mk none 36008000) = false ∧
          (x, y) = (PDT.mk none 36008000, PDT.mk none 36003000))) ∧
      (∀ f, runTfind f "10:00:08".data "10:00:03".data =
        some (printRangeCore f "10:00:08".data "10:00:03".data x y)) :=
  resolveBounds_orders_bounds "10:00:08".data "10:00:03".data
    (PDT.mk none 36008000) (PDT.mk none 36003000) (by decide) (by decide)

/-- C8 counterexample: on the byte sequence `0xFF 0x41` the program's decode
(`errors='ignore'`) drops the invalid byte and yields `"A"`, while the
spec's "invalid byte sequences replaced" decoding yields `"� A"` — the
two policies disagree, so lines are not decoded with replacement. -/
theorem decode_drops_instead_of_replacing :
    decodeLine [255, 65] = ['A'] ∧
    specDecodeReplace [255, 65] = [Char.ofNat 65533, 'A'] ∧
    decodeLine [255, 65] ≠ specDecodeReplace [255, 65] := by decide

end Tfind

namespace Tfind

/-- C5: every line the streaming loop emits has a successfully extracted,
non-empty timestamp text that parses to some `ts` with
`start ≤ ts ≤ end` (both ends inclusive, in the code's own order `leB`);
and a line whose timestamp cannot be extracted (or is empty, or fails to
parse) is skipped silently — it is never emitted and does not terminate the
stream. -/
theorem streamEmit_range_and_silent_skip {τ : Type}
    (extract : List Char → Option (List Char)) (parse : List Char → Option τ)
    (ltB leB : τ → τ → Bool) (startT endT : τ) :
    (∀ ls l, l ∈ streamEmit extract parse ltB leB startT endT ls →
      ∃ tx ts, extract l = some tx ∧ tx ≠ [] ∧ parse tx = some ts ∧
        leB startT ts = true ∧ leB ts endT = true) ∧
    (∀ l ls,
      (extract l = none ∨ extract l = some [] ∨
        ∃ tx, extract l = some tx ∧ parse tx = none) →
      streamEmit extract parse ltB leB startT endT (l :: ls) =
        streamEmit extract parse ltB leB startT endT ls) := by
  constructor
  · intro ls
    induction ls with
    | nil =>
      intro l h
      simp [streamEmit] at h
    | cons x xs ih =>
      intro l hl
      simp only [streamEmit] at hl
      cases hx : extract x with
      | none =>
        simp only [hx] at hl
        exact ih l hl
      | some tx =>
        simp only [hx] at hl
        by_cases he : tx.isEmpty
        · rw [if_pos he] at hl
          exact ih l hl
        · rw [if_neg he] at hl
          cases hp : parse tx with
          | none =>
            simp only [hp] at hl
            exact ih l hl
          | some ts =>
            simp only [hp] at hl
            by_cases hgt : ltB endT ts = true
            · rw [if_pos hgt] at hl
              simp at hl
            · rw [if_neg hgt] at hl
              by_cases hin : (leB startT ts && leB ts endT) = true
              · rw [if_pos hin] at hl
                rcases List.mem_cons.mp hl with rfl | hl'
                · rw [Bool.and_eq_true] at hin
                  refine ⟨tx, ts, hx, ?_, hp, hin.1, hin.2⟩
                  intro hnil
                  rw [hnil] at he
                  exact he rfl
                · exact ih l hl'
              · rw [if_neg hin] at hl
                exact ih l hl
  · intro l ls h
    rcases h with h | h | ⟨tx, hx, hp⟩
    · simp [streamEmit, h]
    · simp [streamEmit, h]
    · by_cases he : tx.isEmpty
      · simp [streamEmit, hx, he]
      · simp [streamEmit, hx, he, hp]

/-- Witness for `streamEmit_range_and_silent_skip`: a one-line stream whose
line carries timestamp 5 inside `[0, 9]` is emitted and satisfies the
range conditions. -/
theorem streamEmit_range_and_silent_skip_witness :
    ∃ tx ts, idExtract ['a'] = some tx ∧ tx ≠ [] ∧ probeParse2 tx = some ts ∧
      decide ((0 : Int) ≤ ts) = true ∧ decide (ts ≤ (9 : Int)) = true :=
  (streamEmit_range_and_silent_skip idExtract probeParse2
      (fun a b => decide (a < b)) (fun a b => decide (a ≤ b)) 0 9).1
    [['a']] ['a'] (by decide)

/-- C6: as soon as the streaming loop meets a line whose parsed timestamp
is strictly beyond the end bound it emits nothing further: the stream up to
that line is independent of everything after the line, and from the line
itself nothing at all is emitted — even when a later line of a non-sorted
file would qualify. -/
theorem streamEmit_stops_at_first_beyond_end {τ : Type}
    (extract : List Char → Option (List Char)) (parse : List Char → Option τ)
    (ltB leB : τ → τ → Bool) (startT endT : τ)
    (l tx : List Char) (ts : τ) (hx : extract l = some tx) (hne : tx ≠ [])
    (hp : parse tx = some ts) (hgt : ltB endT ts = true) :
    ∀ (pre ls ls' : List (List Char)),
      streamEmit extract parse ltB leB startT endT (pre ++ l :: ls) =
        streamEmit extract parse ltB leB startT endT (pre ++ l :: ls') ∧
      streamEmit extract parse ltB leB startT endT (l :: ls) = [] := by
  have hne' : tx.isEmpty = false := by
    cases tx with
    | nil => exact absurd rfl hne
    | cons a t => rfl
  have hstop : ∀ ms, streamEmit extract parse ltB leB startT endT (l :: ms) = [] := by
    intro ms
    simp only [streamEmit, hx, hne', Bool.false_eq_true, if_false, hp, if_pos hgt]
  intro pre
  induction pre with
  | nil =>
    intro ls ls'
    exact ⟨by rw [List.nil_append, List.nil_append, hstop, hstop], hstop ls⟩
  | cons x xs ih =>
    intro ls ls'
    refine ⟨?_, hstop ls⟩
    simp only [List.cons_append, streamEmit, List.append_eq]
    cases hx2 : extract x with
    | none => exact (ih ls ls').1
    | some tx2 =>
      simp only []
      by_cases he2 : tx2.isEmpty
      · rw [if_pos he2, if_pos he2]
        exact (ih ls ls').1
      · rw [if_neg he2, if_neg he2]
        cases hp2 : parse tx2 with
        | none => exact (ih ls ls').1
        | some ts2 =>
          simp only []
          by_cases hg2 : ltB endT ts2 = true
          · rw [if_pos hg2, if_pos hg2]
          · rw [if_neg hg2, if_neg hg2]
            by_cases hin2 : (leB startT ts2 && leB ts2 endT) = true
            · rw [if_pos hin2, if_pos hin2, (ih ls ls').1]
            · rw [if_neg hin2, if_neg hin2]
              exact (ih ls ls').1

/-- Witness for `streamEmit_stops_at_first_beyond_end`: the head line's
timestamp 5 exceeds the end bound 2, so the stream is empty although the
next line's timestamp 1 lies inside `[0, 2]`. -/
theorem streamEmit_stops_at_first_beyond_end_witness :
    streamEmit idExtract probeParse2 (fun a b => decide (a < b))
        (fun a b => decide (a ≤ b)) 0 2 (['a'] :: [['b']]) =
      streamEmit idExtract probeParse2 (fun a b => decide (a < b))
        (fun a b => decide (a ≤ b)) 0 2 (['a'] :: []) ∧
    streamEmit idExtract probeParse2 (fun a b => decide (a < b))
        (fun a b => decide (a ≤ b)) 0 2 (['a'] :: [['b']]) = [] :=
  (streamEmit_stops_at_first_beyond_end idExtract probeParse2
      (fun a b => decide (a < b)) (fun a b => decide (a ≤ b)) 0 2
      ['a'] ['a'] 5 (by decide) (by decide) (by decide) (by decide)
      [] [['b']] []).imp (fun h => by simpa using h) (fun h => h)

end Tfind

namespace Tfind

theorem utf8DecodeIgnoreGo_ascii (fuel : Nat) :
    ∀ bs : List Nat, bs.length ≤ fuel → (∀ b ∈ bs, b < 128) →
      utf8DecodeIgnoreGo fuel bs = bs.map Char.ofNat := by
  induction fuel with
  | zero =>
    intro bs hlen _
    have : bs = [] := List.eq_nil_of_length_eq_zero (by omega)
    subst this
    rfl
  | succ fuel ih =>
    intro bs hlen hb
    cases bs with
    | nil => rfl
    | cons b t =>
      have hb0 : b < 128 := hb b (List.mem_cons_self b t)
      simp only [utf8DecodeIgnoreGo, if_pos hb0, List.map_cons]
      have := ih t (by simp at hlen; omega)
        (fun x hx => hb x (List.mem_cons_of_mem b hx))
      rw [this]

/-- C8 amended: decoding a line never fails — the decode is a total
function on byte sequences; pure ASCII bytes pass through unchanged, and an
invalid lead byte is dropped (ignored), not replaced.  (The `latin1` arm of
the source's `try/except` remains in the code but is unreachable because
the permissive decode raises on nothing.) -/
theorem decodeLine_total_ascii_and_drops (bs : List Nat) :
    ((∀ b ∈ bs, b < 128) → decodeLine bs = bs.map Char.ofNat) ∧
    (∀ b, 245 ≤ b → decodeLine (b :: bs) = decodeLine bs) := by
  constructor
  · intro h
    exact utf8DecodeIgnoreGo_ascii bs.length bs (Nat.le_refl _) h
  · intro b hb
    show utf8DecodeIgnoreGo (b :: bs).length (b :: bs) = utf8DecodeIgnoreGo bs.length bs
    have h1 : ¬ b < 128 := by omega
    have h2 : (194 ≤ b && b ≤ 223) = false := by
      simp only [Bool.and_eq_false_iff, decide_eq_false_iff_not]
      omega
    have h3 : (224 ≤ b && b ≤ 239) = false := by
      simp only [Bool.and_eq_false_iff, decide_eq_false_iff_not]
      omega
    have h4 : (240 ≤ b && b ≤ 244) = false := by
      simp only [Bool.and_eq_false_iff, decide_eq_false_iff_not]
      omega
    simp only [List.length_cons, utf8DecodeIgnoreGo, if_neg h1, h2, h3, h4,
      Bool.false_eq_true, if_false]

/-- Witness for `decodeLine_total_ascii_and_drops`: the ASCII line `"Hi"`
decodes to itself. -/
theorem decodeLine_total_ascii_and_drops_witness :
    decodeLine [72, 105] = [72, 105].map Char.ofNat :=
  (decodeLine_total_ascii_and_drops [72, 105]).1 (by decide)

end Tfind

namespace Tfind

theorem readlineFrom_eq_eof (f : List Char) (q : Nat)
    (h : ((f.drop q).takeWhile (fun c => c != '\n')).length = (f.drop q).length) :
    readlineFrom f q = (f.drop q, q + (f.drop q).length) := by
  simp only [readlineFrom]
  rw [if_pos h]

theorem readlineFrom_eq_nl (f : List Char) (q : Nat)
    (h : ¬ ((f.drop q).takeWhile (fun c => c != '\n')).length = (f.drop q).length) :
    readlineFrom f q =
      ((f.drop q).takeWhile (fun c => c != '\n') ++ ['\n'],
        q + ((f.drop q).takeWhile (fun c => c != '\n')).length + 1) := by
  simp only [readlineFrom]
  rw [if_neg h]

theorem readlineFrom_fst_eq_nil_of_le (f : List Char) (q : Nat)
    (h : f.length ≤ q) : (readlineFrom f q).1 = [] := by
  have hd : f.drop q = [] := List.drop_eq_nil_of_le h
  rw [readlineFrom_eq_eof f q (by rw [hd]; rfl), hd]

theorem readlineFrom_fst_lt_of_ne_nil (f : List Char) (q : Nat)
    (h : (readlineFrom f q).1 ≠ []) : q < f.length := by
  by_cases hq : q < f.length
  · exact hq
  · exact absurd (readlineFrom_fst_eq_nil_of_le f q (by omega)) h

theorem get_after_takeWhile {p : Char → Bool} (l : List Char)
    (h : (l.takeWhile p).length < l.length) :
    ∃ c, l.get? ((l.takeWhile p).length) = some c ∧ p c = false := by
  induction l with
  | nil => simp at h
  | cons a t ih =>
    by_cases hp : p a
    · rw [List.takeWhile_cons, if_pos hp] at h ⊢
      simp only [List.length_cons] at h
      obtain ⟨c, hc, hcp⟩ := ih (by omega)
      exact ⟨c, by simpa using hc, hcp⟩
    · rw [List.takeWhile_cons, if_neg hp]
      exact ⟨a, by simp, by simpa using hp⟩

theorem readlineFrom_snd_lineStart (f : List Char) (p : Nat)
    (hp : p ≤ f.length) :
    (readlineFrom f p).2 = f.length ∨
      isLineStartB f ((readlineFrom f p).2) = true := by
  by_cases h : ((f.drop p).takeWhile (fun c => c != '\n')).length = (f.drop p).length
  · left
    rw [readlineFrom_eq_eof f p h]
    simp only [List.length_drop]
    omega
  · right
    rw [readlineFrom_eq_nl f p h]
    have hlt : ((f.drop p).takeWhile (fun c => c != '\n')).length < (f.drop p).length :=
      lt_of_le_of_ne (takeWhile_length_le _ _) h
    obtain ⟨c, hc, hcp⟩ := get_after_takeWhile (f.drop p) hlt
    have hcn : c = '\n' := by simpa using hcp
    rw [hcn] at hc
    have hc' : f.get? (p + ((f.drop p).takeWhile (fun c => c != '\n')).length) =
        some '\n' := by
      rw [List.get?_eq_getElem?, ← List.getElem?_drop, ← List.get?_eq_getElem?]
      exact hc
    rw [isLineStartB]
    simp only [Nat.add_sub_cancel, hc']
    simp

theorem mem_startsList {f : List Char} {q : Nat} :
    q ∈ startsList f ↔ q < f.length ∧ isLineStartB f q = true := by
  simp [startsList, List.mem_filter, List.mem_range]

theorem pairwiseLeB_rel (g : Nat → Option Int) (l : List Nat)
    (hp : pairwiseLeB (l.map g) = true) (hpw : l.Pairwise (· < ·)) :
    ∀ a ∈ l, ∀ b ∈ l, a < b → leOpt (g a) (g b) = true := by
  induction l with
  | nil =>
    intro a ha
    simp at ha
  | cons h t ih =>
    simp only [List.map_cons, pairwiseLeB, Bool.and_eq_true] at hp
    rw [List.pairwise_cons] at hpw
    intro a ha b hb hab
    rcases List.mem_cons.mp ha with rfl | ha'
    · rcases List.mem_cons.mp hb with rfl | hb'
      · omega
      · exact List.all_eq_true.mp hp.1 (g b) (List.mem_map_of_mem g hb')
    · rcases List.mem_cons.mp hb with rfl | hb'
      · have := hpw.1 a ha'
        omega
      · exact ih hp.2 hpw.2 a ha' b hb' hab

theorem sortedParsedB_isSome {parse : List Char → Option Int} {f : List Char}
    (hs : sortedParsedB parse f = true) :
    ∀ q ∈ startsList f, (parse (lineAt f q)).isSome = true := by
  rw [sortedParsedB, Bool.and_eq_true] at hs
  exact fun q hq => List.all_eq_true.mp hs.1 q hq

theorem sortedParsedB_mono {parse : List Char → Option Int} {f : List Char}
    (hs : sortedParsedB parse f = true) :
    ∀ q1 ∈ startsList f, ∀ q2 ∈ startsList f, q1 < q2 →
      leOpt (parse (lineAt f q1)) (parse (lineAt f q2)) = true := by
  rw [sortedParsedB, Bool.and_eq_true] at hs
  exact pairwiseLeB_rel _ _ hs.2 ((List.pairwise_lt_range f.length).filter _)

end Tfind

namespace Tfind

theorem bsearchGo_inv (parse : List Char → Option Int) (f : List Char)
    (target : Int) (hs : sortedParsedB parse f = true) :
    ∀ (fuel low hi : Nat), hi ≤ f.length →
      (∀ q, isLineStartB f q = true → q < f.length → q < low →
        ∃ t, parse (lineAt f q) = some t ∧ t < target) →
      ∀ q, isLineStartB f q = true → q < f.length →
        q < bsearchGo parse (fun a b => decide (a < b)) f target fuel low hi →
        ∃ t, parse (lineAt f q) = some t ∧ t < target := by
  intro fuel
  induction fuel with
  | zero =>
    intro low hi hhi hInv q hq hql hqr
    exact hInv q hq hql hqr
  | succ fuel ih =>
    intro low hi hhi hInv
    rw [bsearchGo]
    by_cases hlh : low < hi
    · rw [if_pos hlh]
      by_cases hemp : (readlineFrom f ((readlineFrom f ((low + hi) / 2)).2)).1.isEmpty
      · rw [if_pos hemp]
        exact hInv
      · rw [if_neg hemp]
        have hmid : (low + hi) / 2 ≤ f.length := by omega
        have hne : (readlineFrom f ((readlineFrom f ((low + hi) / 2)).2)).1 ≠ [] := by
          intro hnil
          rw [hnil] at hemp
          exact hemp rfl
        have hplen : (readlineFrom f ((low + hi) / 2)).2 < f.length :=
          readlineFrom_fst_lt_of_ne_nil f _ hne
        have hstart : isLineStartB f ((readlineFrom f ((low + hi) / 2)).2) = true := by
          rcases readlineFrom_snd_lineStart f ((low + hi) / 2) hmid with he | hs'
          · omega
          · exact hs'
        have hsome := sortedParsedB_isSome hs _
          (mem_startsList.mpr ⟨hplen, hstart⟩)
        cases hpl : parse (readlineFrom f ((readlineFrom f ((low + hi) / 2)).2)).1 with
        | none =>
          rw [lineAt, hpl] at hsome
          simp at hsome
        | some ts =>
          simp only [hpl, decide_eq_true_eq]
          by_cases hts : ts < target
          · rw [if_pos hts]
            apply ih ((readlineFrom f ((low + hi) / 2)).2 + 1) hi hhi
            intro q' hq' hql' hqr'
            by_cases hqp : q' = (readlineFrom f ((low + hi) / 2)).2
            · subst hqp
              refine ⟨ts, ?_, hts⟩
              rw [lineAt, hpl]
            · have hlt : q' < (readlineFrom f ((low + hi) / 2)).2 := by omega
              have h1 := sortedParsedB_isSome hs q' (mem_startsList.mpr ⟨hql', hq'⟩)
              have h2 := sortedParsedB_mono hs q' (mem_startsList.mpr ⟨hql', hq'⟩)
                _ (mem_startsList.mpr ⟨hplen, hstart⟩) hlt
              obtain ⟨t', ht'⟩ := Option.isSome_iff_exists.mp h1
              rw [ht'] at h2
              rw [lineAt, hpl] at h2
              simp only [leOpt, decide_eq_true_eq] at h2
              exact ⟨t', ht', by omega⟩
          · rw [if_neg hts]
            exact ih low ((low + hi) / 2) (by omega) hInv
    · rw [if_neg hlh]
      exact hInv

/-- C1 counterexample: `probeFile` is sorted by parsed timestamp (lines at
offsets 0, 7 and 14 parse to 1, 2 and 3), yet with a start bound beyond
every line's timestamp the binary search returns offset 15, which is not
the start offset of a complete line (byte 14 begins the last line): the
`low = pos + 1` update leaves `low` one byte inside the examined line. -/
theorem binary_search_start_returns_mid_line :
    sortedParsedB probeParse probeFile = true ∧
    binary_search_start probeParse (fun a b => decide (a < b)) probeFile 9 = 15 ∧
    isLineStartB probeFile 15 = false := by decide

/-- C1 amended: for every file whose lines all parse with non-decreasing
timestamps and every start bound, every complete line beginning at a byte
offset strictly below the offset `binary_search_start` returns has a parsed
timestamp strictly below the bound.  (The returned offset itself need not
be the start offset of a complete line, and the line at or containing it
need not have a timestamp at or beyond the bound — see the counterexample;
this lower-bound invariant is what the search actually guarantees.) -/
theorem binary_search_start_lower_bound (parse : List Char → Option Int)
    (f : List Char) (target : Int) (hs : sortedParsedB parse f = true) :
    ∀ q, isLineStartB f q = true → q < f.length →
      q < binary_search_start parse (fun a b => decide (a < b)) f target →
      ∃ t, parse (lineAt f q) = some t ∧ t < target := by
  intro q hq hql hqr
  refine bsearchGo_inv parse f target hs (f.length + 1) 0 f.length
    (Nat.le_refl _) ?_ q hq hql hqr
  intro q' _ _ h
  omega

/-- Witness for `binary_search_start_lower_bound`: in `probeFile` with
bound 9 the returned offset is 15, and the complete line at offset 7
(strictly below 15) parses to 2 < 9. -/
theorem binary_search_start_lower_bound_witness :
    ∃ t, probeParse (lineAt probeFile 7) = some t ∧ t < 9 :=
  binary_search_start_lower_bound probeParse probeFile 9 (by decide) 7
    (by decide) (by decide) (by decide)

end Tfind

namespace Tfind

theorem takeWhile_all {p : Char → Bool} (l : List Char) :
    (l.takeWhile p).all p = true := by
  induction l with
  | nil => rfl
  | cons a t ih =>
    by_cases h : p a <;> simp [List.takeWhile_cons, h, ih]

theorem takeWhile_append_all {p : Char → Bool} (w u : List Char)
    (hw : w.all p = true) : (w ++ u).takeWhile p = w ++ u.takeWhile p := by
  induction w with
  | nil => simp
  | cons a t ih =>
    simp only [List.all_cons, Bool.and_eq_true] at hw
    simp [List.takeWhile_cons, hw.1, ih hw.2]

theorem all_drop {p : Char → Bool} (l : List Char) (n : Nat)
    (h : l.all p = true) : (l.drop n).all p = true := by
  rw [List.all_eq_true] at h ⊢
  exact fun x hx => h x (List.mem_of_mem_drop hx)

theorem all_take {p : Char → Bool} (l : List Char) (n : Nat)
    (h : l.all p = true) : (l.take n).all p = true := by
  rw [List.all_eq_true] at h ⊢
  exact fun x hx => h x (List.mem_of_mem_take hx)

theorem getLastD_all {p : Char → Bool} :
    ∀ (l : List Char) (d : Char), p d = true → l.all p = true →
      p (l.getLastD d) = true
  | [], _, hd, _ => hd
  | a :: t, d, _, h => by
    simp only [List.all_cons, Bool.and_eq_true] at h
    rw [List.getLastD_cons]
    exact getLastD_all t a h.1 h.2

theorem ne_dot_of_pyDigit {x : Char} (h : pyDigit x = true) : x ≠ '.' := by
  intro he
  rw [he] at h
  exact absurd h (by decide)

theorem ne_dot_of_pyAlpha {x : Char} (h : pyAlpha x = true) : x ≠ '.' := by
  intro he
  rw [he] at h
  exact absurd h (by decide)

theorem tryFromK_isSome (lo : Nat) (next : List Char → Option (List Char))
    (s : List Char) (k0 : Nat) (hlo : lo ≤ k0)
    (hnext : (next (s.drop k0)).isSome = true) :
    ∀ K, k0 ≤ K → (tryFromK lo next s K).isSome = true := by
  intro K
  induction K with
  | zero =>
    intro h0
    have hk0 : k0 = 0 := by omega
    rw [tryFromK, if_pos (by omega)]
    rw [hk0, List.drop_zero] at hnext
    exact hnext
  | succ K ihK =>
    intro hK
    rw [tryFromK, if_neg (by omega)]
    cases hn : next (s.drop (K + 1)) with
    | some r => simp
    | none =>
      simp only []
      by_cases hk : k0 = K + 1
      · rw [hk] at hnext
        rw [hn] at hnext
        simp at hnext
      · exact ihK (by omega)

theorem coreG_class_isSome (lo hi : Nat) (p : Char → Bool)
    (ts : List Tok) (w u : List Char) (hw : w.all p = true)
    (hlo : lo ≤ w.length) (hhi : w.length ≤ hi)
    (hnext : (coreG ts u).isSome = true) :
    (tryFromK lo (coreG ts) (w ++ u)
      (min hi (((w ++ u).takeWhile p).length))).isSome = true := by
  apply tryFromK_isSome lo (coreG ts) (w ++ u) w.length hlo
  · rw [List.drop_left]
    exact hnext
  · rw [takeWhile_append_all w u hw]
    simp only [List.length_append]
    omega

end Tfind


namespace Tfind


theorem isSome_map (f : List Char → List Char) (o : Option (List Char)) :
    (o.map f).isSome = o.isSome := by
  cases o <;> rfl

theorem not_alpha_of_pyDigit {x : Char} (h : pyDigit x = true) :
    pyAlpha x = false := by
  have hx := pyDigit_toNat h
  simp only [pyAlpha, Bool.or_eq_false_iff, Bool.and_eq_false_iff,
    decide_eq_false_iff_not]
  omega

theorem dot_digit_match (toks₂ : List Tok) (hi2 : Nat)
    (hhi2 : hi2 = 2 ∨ hi2 = 4) (run u : List Char)
    (hrun : run.all pyDigit = true) (h2 : 2 ≤ run.length)
    (h11 : run.length ≤ 11) (tk : Tok)
    (htk : ∀ s, coreG (tk :: toks₂) s =
      tryFromK 1 (coreG toks₂) s (min hi2 ((s.takeWhile pyDigit).length)))
    (hnext : (coreG toks₂ u).isSome = true) :
    (tryFromK 1 (coreG (tk :: toks₂)) (run ++ u)
      (min 9 (((run ++ u).takeWhile pyDigit).length))).isSome = true := by
  have hS3 : run ++ u =
      run.take (run.length - min hi2 (run.length - 1)) ++
        (run.drop (run.length - min hi2 (run.length - 1)) ++ u) := by
    rw [← List.append_assoc, List.take_append_drop]
  rw [hS3]
  apply coreG_class_isSome 1 9 pyDigit (tk :: toks₂) _ _
    (all_take run _ hrun) ?_ ?_ ?_
  · rw [List.length_take]
    rcases hhi2 with rfl | rfl <;> omega
  · rw [List.length_take]
    rcases hhi2 with rfl | rfl <;> omega
  · rw [htk]
    apply coreG_class_isSome 1 hi2 pyDigit toks₂ _ _
      (all_drop run _ hrun) ?_ ?_ hnext
    · rw [List.length_drop]
      rcases hhi2 with rfl | rfl <;> omega
    · rw [List.length_drop]
      rcases hhi2 with rfl | rfl <;> omega

theorem tokens_match :
    ∀ (fuel : Nat) (s : List Char) (prev : Option Char) (t : List Char),
      s.length ≤ fuel → (prev == some '.') = false →
      goodRunsGo fuel prev s = true →
      (coreG (tfTokensGo fuel prev s) (s ++ t)).isSome = true := by
  intro fuel
  induction fuel using Nat.strong_induction_on with
  | _ fuel ih =>
    intro s prev t hlen hprev hgood
    rcases s with _ | ⟨c, cs⟩
    · cases fuel <;> simp [tfTokensGo, coreG]
    rcases fuel with _ | fuel
    · simp at hlen
    simp only [List.length_cons] at hlen
    simp only [tfTokensGo]
    simp only [goodRunsGo] at hgood
    by_cases hα : pyAlpha c = true
    · -- a letter run
      rw [if_pos hα] at hgood ⊢
      rw [Bool.and_eq_true] at hgood
      have hrun_all : (c :: cs.takeWhile pyAlpha).all pyAlpha = true := by
        simp [List.all_cons, hα, takeWhile_all]
      have hprev' :
          ((some ((c :: cs.takeWhile pyAlpha).getLastD c) : Option Char) ==
            some '.') = false := by
        have hd := getLastD_all (c :: cs.takeWhile pyAlpha) c hα hrun_all
        simp only [beq_eq_false_iff_ne, ne_eq, Option.some.injEq]
        exact ne_dot_of_pyAlpha hd
      have hlen' : (cs.dropWhile pyAlpha).length ≤ fuel := by
        have := (List.dropWhile_suffix pyAlpha (l := cs)).length_le
        omega
      have hnext := ih fuel (by omega) (cs.dropWhile pyAlpha) _ t hlen' hprev'
        hgood.2
      have hS : (c :: cs) ++ t =
          (c :: cs.takeWhile pyAlpha) ++ (cs.dropWhile pyAlpha ++ t) := by
        rw [List.cons_append, List.cons_append, ← List.append_assoc,
          List.takeWhile_append_dropWhile]
      rw [hS]
      by_cases hm : monthShaped (c :: cs.takeWhile pyAlpha) = true
      · rw [if_pos hm]
        have h3 : 3 ≤ (c :: cs.takeWhile pyAlpha).length := by
          rw [monthShaped] at hm
          simp only [Bool.and_eq_true, decide_eq_true_eq] at hm
          exact hm.1.1
        have h9 : (c :: cs.takeWhile pyAlpha).length ≤ 9 := by
          have h1 := hgood.1
          rw [hm] at h1
          simpa using h1
        simp only [coreG]
        exact coreG_class_isSome 3 9 pyAlpha _ _ _ hrun_all h3 h9 hnext
      · rw [if_neg hm]
        simp only [coreG]
        apply coreG_class_isSome 1 _ pyAlpha _ _ _ hrun_all (by simp) (by simp)
          hnext
    · by_cases hδ : pyDigit c = true
      · -- a digit run
        rw [if_neg hα, if_pos hδ] at hgood ⊢
        rw [hprev] at hgood
        simp only [Bool.false_eq_true, if_false] at hgood
        rw [Bool.and_eq_true] at hgood
        have hrun_all : (c :: cs.takeWhile pyDigit).all pyDigit = true := by
          simp [List.all_cons, hδ, takeWhile_all]
        have hprev' :
            ((some ((c :: cs.takeWhile pyDigit).getLastD c) : Option Char) ==
              some '.') = false := by
          have hd := getLastD_all (c :: cs.takeWhile pyDigit) c hδ hrun_all
          simp only [beq_eq_false_iff_ne, ne_eq, Option.some.injEq]
          exact ne_dot_of_pyDigit hd
        have hlen' : (cs.dropWhile pyDigit).length ≤ fuel := by
          have := (List.dropWhile_suffix pyDigit (l := cs)).length_le
          omega
        have hnext := ih fuel (by omega) (cs.dropWhile pyDigit) _ t hlen'
          hprev' hgood.2
        have hS : (c :: cs) ++ t =
            (c :: cs.takeWhile pyDigit) ++ (cs.dropWhile pyDigit ++ t) := by
          rw [List.cons_append, List.cons_append, ← List.append_assoc,
            List.takeWhile_append_dropWhile]
        rw [hS]
        by_cases hca : ((prev == some ':') ||
            ((cs.dropWhile pyDigit).head? == some ':')) = true
        · rw [if_pos hca]
          have h2 : (c :: cs.takeWhile pyDigit).length ≤ 2 := by
            have h1 := hgood.1
            rw [if_pos hca] at h1
            simpa using h1
          simp only [coreG]
          exact coreG_class_isSome 1 2 pyDigit _ _ _ hrun_all (by simp) h2 hnext
        · rw [if_neg hca]
          have h4 : (c :: cs.takeWhile pyDigit).length ≤ 4 := by
            have h1 := hgood.1
            rw [if_neg hca] at h1
            simpa using h1
          simp only [coreG]
          exact coreG_class_isSome 1 4 pyDigit _ _ _ hrun_all (by simp) h4 hnext
      · by_cases hdot : (c == '.') = true
        · -- a literal dot followed by the digit run it must absorb
          have hc : c = '.' := by simpa using hdot
          subst hc
          rw [if_neg hα, if_neg hδ, if_pos hdot] at hgood ⊢
          rw [Bool.and_eq_true] at hgood
          rcases cs with _ | ⟨d, cs'⟩
          · simp at hgood
          have hd : pyDigit d = true := by simpa using hgood.1
          rcases fuel with _ | fuel2
          · simp only [List.length_cons] at hlen
            omega
          have hg2 := hgood.2
          simp only [tfTokensGo]
          simp only [goodRunsGo] at hg2
          rw [if_neg (by simp [not_alpha_of_pyDigit hd]), if_pos hd] at hg2 ⊢
          rw [show ((some '.' : Option Char) == some '.') = true from rfl] at hg2
          simp only [if_true] at hg2
          rw [Bool.and_eq_true, Bool.and_eq_true] at hg2
          obtain ⟨⟨h2k, hk11⟩, hg3⟩ := hg2
          rw [decide_eq_true_eq] at h2k hk11
          have hrun_all : (d :: cs'.takeWhile pyDigit).all pyDigit = true := by
            simp [List.all_cons, hd, takeWhile_all]
          have hprev'' :
              ((some ((d :: cs'.takeWhile pyDigit).getLastD d) : Option Char) ==
                some '.') = false := by
            have hdl := getLastD_all (d :: cs'.takeWhile pyDigit) d hd hrun_all
            simp only [beq_eq_false_iff_ne, ne_eq, Option.some.injEq]
            exact ne_dot_of_pyDigit hdl
          have hlen'' : (cs'.dropWhile pyDigit).length ≤ fuel2 := by
            have := (List.dropWhile_suffix pyDigit (l := cs')).length_le
            simp only [List.length_cons] at hlen
            omega
          have hnext := ih fuel2 (by omega) (cs'.dropWhile pyDigit) _ t hlen''
            hprev'' hg3
          rw [List.cons_append]
          simp only [coreG]
          rw [isSome_map]
          have hS2 : (d :: cs') ++ t =
              (d :: cs'.takeWhile pyDigit) ++ (cs'.dropWhile pyDigit ++ t) := by
            rw [List.cons_append, List.cons_append, ← List.append_assoc,
              List.takeWhile_append_dropWhile]
          rw [hS2]
          by_cases hca : (((some '.' : Option Char) == some ':') ||
              ((cs'.dropWhile pyDigit).head? == some ':')) = true
          · rw [if_pos hca]
            exact dot_digit_match _ 2 (Or.inl rfl) _ _ hrun_all h2k hk11
              Tok.dshort (fun s => rfl) hnext
          · rw [if_neg hca]
            exact dot_digit_match _ 4 (Or.inr rfl) _ _ hrun_all h2k hk11
              Tok.dlong (fun s => rfl) hnext
        · by_cases hsp : (c == ' ') = true
          · -- a space becomes a whitespace-run class
            have hc : c = ' ' := by simpa using hsp
            subst hc
            rw [if_neg hα, if_neg hδ, if_neg hdot, if_pos hsp]
            rw [if_neg hα, if_neg hδ, if_neg hdot] at hgood
            have hnext := ih fuel (by omega) cs (some ' ') t (by omega)
              (by decide) hgood
            rw [List.cons_append,
              show (' ' :: (cs ++ t)) = [' '] ++ (cs ++ t) from rfl]
            simp only [coreG]
            exact coreG_class_isSome 1 _ pyIsSpace _ [' '] (cs ++ t) (by decide)
              (by simp) (by simp) hnext
          · -- any other character is a literal
            rw [if_neg hα, if_neg hδ, if_neg hdot, if_neg hsp]
            rw [if_neg hα, if_neg hδ, if_neg hdot] at hgood
            have hcne : c ≠ '.' := by
              intro he
              exact hdot (by simp [he])
            have hplit : ((some c : Option Char) == some '.') = false := by
              simp only [beq_eq_false_iff_ne, ne_eq, Option.some.injEq]
              exact hcne
            have hnext := ih fuel (by omega) cs (some c) t (by omega) hplit hgood
            rw [List.cons_append]
            simp only [coreG]
            rw [if_pos trivial, isSome_map]
            exact hnext

end Tfind

namespace Tfind

theorem userSearch_isSome_of_suffix (toks : List Tok) :
    ∀ (v u : List Char), (coreG toks u).isSome = true →
      (userSearch toks (v ++ u)).isSome = true := by
  intro v
  induction v with
  | nil =>
    intro u h
    cases u with
    | nil => simpa [userSearch] using h
    | cons c u' =>
      rw [List.nil_append]
      rw [userSearch]
      by_cases hb : c = '['
      · rw [if_pos hb]
        cases hin : coreG toks u' with
        | some g => simp
        | none =>
          simp only []
          cases hout : coreG toks (c :: u') with
          | some g => simp
          | none =>
            rw [hout] at h
            simp at h
      · rw [if_neg hb]
        cases hout : coreG toks (c :: u') with
        | some g => simp
        | none =>
          rw [hout] at h
          simp at h
  | cons a v' ih =>
    intro u h
    rw [List.cons_append, userSearch]
    by_cases hb : a = '['
    · rw [if_pos hb]
      cases hin : coreG toks (v' ++ u) with
      | some g => simp
      | none =>
        simp only []
        cases hout : coreG toks (a :: (v' ++ u)) with
        | some g => simp
        | none =>
          simpa using ih u h
    · rw [if_neg hb]
      cases hout : coreG toks (a :: (v' ++ u)) with
      | some g => simp
      | none =>
        have := ih u h
        exact this

theorem dropWhile_decomp (p : Char → Bool) (l : List Char) :
    ∃ pre, l = pre ++ l.dropWhile p := by
  induction l with
  | nil => exact ⟨[], rfl⟩
  | cons a t ih =>
    by_cases h : p a
    · obtain ⟨pre, hpre⟩ := ih
      exact ⟨a :: pre, by rw [List.dropWhile_cons, if_pos h, List.cons_append, ← hpre]⟩
    · exact ⟨[], by rw [List.dropWhile_cons, if_neg h, List.nil_append]⟩

theorem rdropWhile_decomp (p : Char → Bool) (l : List Char) :
    ∃ post, l = l.rdropWhile p ++ post := by
  obtain ⟨pre, hpre⟩ := dropWhile_decomp p l.reverse
  refine ⟨pre.reverse, ?_⟩
  have hrev : l.reverse.reverse = (pre ++ l.reverse.dropWhile p).reverse := by
    rw [← hpre]
  rw [List.reverse_reverse, List.reverse_append] at hrev
  rw [List.rdropWhile]
  exact hrev

theorem tail_decomp (l : List Char) : ∃ pre, l = pre ++ l.tail := by
  cases l with
  | nil => exact ⟨[], rfl⟩
  | cons a t => exact ⟨[a], rfl⟩

theorem dropLast_decomp (l : List Char) : ∃ post, l = l.dropLast ++ post := by
  cases hl : l.getLast? with
  | none =>
    have : l = [] := by
      cases l with
      | nil => rfl
      | cons a t => simp [List.getLast?_concat] at hl
    exact ⟨[], by simp [this]⟩
  | some a =>
    refine ⟨[a], ?_⟩
    have hne : l ≠ [] := by
      intro h
      rw [h] at hl
      simp at hl
    rw [List.dropLast_append_getLast? a hl]

theorem bracketStrip_decomp (s : List Char) :
    ∃ pre post, s = pre ++ (bracketStrip s ++ post) := by
  obtain ⟨p1, hp1⟩ := tail_decomp s
  simp only [bracketStrip]
  by_cases h1 : (s.head? == some '[') = true
  · rw [if_pos h1]
    obtain ⟨q1, hq1⟩ := dropLast_decomp s.tail
    by_cases h2 : (s.tail.getLast? == some ']') = true
    · rw [if_pos h2]
      exact ⟨p1, q1, by rw [← hq1, ← hp1]⟩
    · rw [if_neg h2]
      exact ⟨p1, [], by rw [List.append_nil, ← hp1]⟩
  · rw [if_neg h1]
    obtain ⟨q2, hq2⟩ := dropLast_decomp s
    by_cases h2 : (s.getLast? == some ']') = true
    · rw [if_pos h2]
      exact ⟨[], q2, by rw [List.nil_append, ← hq2]⟩
    · rw [if_neg h2]
      exact ⟨[], [], by simp⟩

theorem stripped_decomp (ex : List Char) :
    ∃ pre post, ex = pre ++ (bracketStrip (pyStrip ex) ++ post) := by
  obtain ⟨p1, hp1⟩ := dropWhile_decomp pyIsSpace ex
  obtain ⟨q1, hq1⟩ := rdropWhile_decomp pyIsSpace (ex.dropWhile pyIsSpace)
  obtain ⟨p2, q2, h2⟩ := bracketStrip_decomp (pyStrip ex)
  have hq1' : ex.dropWhile pyIsSpace = pyStrip ex ++ q1 := by
    rw [pyStrip]
    exact hq1
  refine ⟨p1 ++ p2, q2 ++ q1, ?_⟩
  set bs := bracketStrip (pyStrip ex) with hbs
  conv_lhs => rw [hp1, hq1', h2]
  simp [List.append_assoc]

/-- C3 amended: for every example string from the supported token grammar
in which every colon-adjacent digit run has at most two digits and every
other digit run at most four (the widths of the classes the learner emits),
every month-shaped letter run has at most nine letters, and every literal
dot is followed by two to eleven digits, the matcher built from the example
matches the example itself. -/
theorem patternLearner_roundtrip_restricted (ex : List Char)
    (h : goodExampleB ex = true) :
    (userSearch (tfBuild ex) ex).isSome = true := by
  obtain ⟨pre, post, hdec⟩ := stripped_decomp ex
  have hm : (coreG (tfBuild ex) (bracketStrip (pyStrip ex) ++ post)).isSome =
      true :=
    tokens_match (bracketStrip (pyStrip ex)).length
      (bracketStrip (pyStrip ex)) none post (Nat.le_refl _) rfl h
  have hs := userSearch_isSome_of_suffix (tfBuild ex) pre
    (bracketStrip (pyStrip ex) ++ post) hm
  rw [← hdec] at hs
  exact hs

/-- Witness for `patternLearner_roundtrip_restricted`: the date-time example
of Scenario A, whose runs all fit the learned class widths. -/
theorem patternLearner_roundtrip_restricted_witness :
    (userSearch (tfBuild "2024-01-01 10:00:03".data)
      "2024-01-01 10:00:03".data).isSome = true :=
  patternLearner_roundtrip_restricted "2024-01-01 10:00:03".data (by decide)

end Tfind

namespace Tfind

/-- Witness for `run_fatal_iff_a_bound_unparsable` at a concrete file and
bounds. -/
theorem run_fatal_iff_a_bound_unparsable_witness :
    runTfind ['a'] "x".data "y".data = none ↔
      (parse_user_datetime "x".data = none ∨
        parse_user_datetime "y".data = none) :=
  run_fatal_iff_a_bound_unparsable ['a'] "x".data "y".data

end Tfind
